import Mathlib

/-!
Verification of the ASQ core of this repository: the CSS-like selector
engine (src/interpreter/core/computer/asq/modules/advanced_selectors.py),
the element/result cache and performance counters
(src/interpreter/core/computer/asq/modules/performance.py) and the
workflow step executor
(src/interpreter/core/computer/asq/modules/workflow_automation.py).

Python strings are modelled as Lean String/List Char, wall-clock time as
Nat (seconds), fallible calls as Option/Except.  The regular expressions
of the parser are fixed patterns; each is embedded as a recursive scanner
that reproduces the leftmost, greedy, backtracking semantics of Python's
re module on that exact pattern.
-/

/-- Whitespace class of Python's str.strip / str.split and of the regex
class \s: space, tab, newline, carriage return, vertical tab, form feed. -/
def isPySpace (c : Char) : Bool :=
  c = ' ' || c = '\t' || c = '\n' || c = '\r' || c = '\x0b' || c = '\x0c'

/-- Python str.strip() on a character list. -/
def pyStripL (l : List Char) : List Char :=
  ((l.dropWhile isPySpace).reverse.dropWhile isPySpace).reverse

/-- Python str.strip(). -/
def pyStrip (s : String) : String := (pyStripL s.toList).asString

/-- Python str.lower() (ASCII; the selectors and roles here are ASCII). -/
def pyLower (s : String) : String := (s.toList.map Char.toLower).asString

/-- Does the list begin with the given needle (first argument)? -/
def startsWithL : List Char → List Char → Bool
  | [], _ => true
  | _ :: _, [] => false
  | a :: as, b :: bs => a = b && startsWithL as bs

/-- Does the needle (first argument) occur as a contiguous run of the hay? -/
def infixOfL (needle : List Char) : List Char → Bool
  | [] => needle.isEmpty
  | c :: t => startsWithL needle (c :: t) || infixOfL needle t

/-- Python str.split() without arguments: split on runs of whitespace,
dropping empty pieces.  Fuel is the length of the list, enough because
every step consumes at least one character. -/
def pySplitAux : Nat → List Char → List String
  | 0, _ => []
  | _ + 1, [] => []
  | f + 1, c :: rest =>
    if isPySpace c then pySplitAux f rest
    else
      let w := c :: rest.takeWhile (fun x => !isPySpace x)
      w.asString :: pySplitAux f (rest.dropWhile (fun x => !isPySpace x))

/-- Python str.split() without arguments. -/
def pySplit (s : String) : List String := pySplitAux s.length s.toList

/-- Read-only capability view of one accessibility widget, every field
optional exactly as the source reads them through getattr with defaults. -/
structure Widget where
  name : Option String := none
  role : Option String := none
  text : Option String := none
  visible : Option Bool := none
  enabled : Option Bool := none
  focused : Option Bool := none
  selected : Option Bool := none
  checked : Option Bool := none
  position : Option (Int × Int) := none
  size : Option (Int × Int) := none
deriving DecidableEq

/-- Python str() of a bool. -/
def pyBoolStr (b : Bool) : String := if b then "True" else "False"

/-- Python str() of a pair of ints. -/
def pyPairStr (p : Int × Int) : String :=
  "(" ++ toString p.1 ++ ", " ++ toString p.2 ++ ")"

/-- Mirrors str(getattr(element, attr_name, '')) in
AdvancedSelectorParser.matches_element for the Widget capability fields:
an absent field reads as the empty string, a present one as its str(). -/
def widgetAttrStr (w : Widget) (attr : String) : String :=
  match attr with
  | "name" => w.name.getD ""
  | "role" => w.role.getD ""
  | "text" => w.text.getD ""
  | "visible" => (w.visible.map pyBoolStr).getD ""
  | "enabled" => (w.enabled.map pyBoolStr).getD ""
  | "focused" => (w.focused.map pyBoolStr).getD ""
  | "selected" => (w.selected.map pyBoolStr).getD ""
  | "checked" => (w.checked.map pyBoolStr).getD ""
  | "position" => (w.position.map pyPairStr).getD ""
  | "size" => (w.size.map pyPairStr).getD ""
  | _ => ""

/-- Parsed part of a CSS-like selector, mirroring dataclass SelectorPart.
attributes keeps the dict name -> (operator, value) as an ordered
association list with Python-dict update semantics. -/
structure SelectorPart where
  element_type : Option String := none
  attributes : List (String × String × String) := []
  pseudo_selectors : List String := []
  spatial_relation : Option String := none
  spatial_target : Option String := none
deriving DecidableEq

/-- Character class [a-zA-Z_] opening a pseudo-selector name. -/
def isPseudoStart (c : Char) : Bool := c.isAlpha || c = '_'

/-- Character class [a-zA-Z0-9_-] continuing a pseudo-selector name. -/
def isPseudoChar (c : Char) : Bool := c.isAlphanum || c = '_' || c = '-'

/-- Simultaneous re.findall and re.sub of the fixed pseudo-selector
pattern (a colon, a [a-zA-Z_] character, then [a-zA-Z0-9_-]*): returns
the captured names and the text with every match removed.  Both re calls
use the same leftmost non-overlapping matches, so one scan is faithful.
Fuel is the length of the input, enough because every step consumes at
least one character. -/
def pseudoScan : Nat → List Char → List String × List Char
  | 0, l => ([], l)
  | _ + 1, [] => ([], [])
  | f + 1, ':' :: rest =>
    match rest with
    | c :: rest2 =>
      if isPseudoStart c then
        let run := c :: rest2.takeWhile isPseudoChar
        let (ms, out) := pseudoScan f (rest2.dropWhile isPseudoChar)
        (run.asString :: ms, out)
      else
        let (ms, out) := pseudoScan f (c :: rest2)
        (ms, ':' :: out)
    | [] => ([], [':'])
  | f + 1, c :: rest =>
    let (ms, out) := pseudoScan f rest
    (ms, c :: out)

/-- Character class of the attribute-name group: any character other
than an equals sign or a closing bracket. -/
def isAttrNameChar (c : Char) : Bool := c ≠ '=' && c ≠ ']'

/-- Character class of the attribute-value group: any character other
than a double quote or a closing bracket. -/
def isAttrValChar (c : Char) : Bool := c ≠ '"' && c ≠ ']'

/-- Optional first character of the operator group. -/
def isOpChar (c : Char) : Bool :=
  c = '!' || c = '^' || c = '$' || c = '*' || c = '~' || c = '|'

/-- Tail of the attribute pattern after the operator: an optional double
quote, the value group (one or more non-quote non-bracket characters,
greedy), an optional double quote, then the closing bracket.  The value
run is maximal, so the match succeeds exactly when the run is nonempty
and is followed by a closing bracket, quoted or not. -/
def attrValueTail (l : List Char) : Option (String × List Char) :=
  let run := l.takeWhile isAttrValChar
  if run.isEmpty then none
  else
    match l.dropWhile isAttrValChar with
    | '"' :: ']' :: r => some (run.asString, r)
    | ']' :: r => some (run.asString, r)
    | _ => none

/-- Value part after the operator.  The leading optional quote is greedy;
when the text starts with a quote the non-consuming fallback would need a
value character at that quote and always fails, so consuming it first is
exactly the regex's backtracking behaviour. -/
def attrAfterOp (op : String) (l : List Char) : Option (String × String × List Char) :=
  match l with
  | '"' :: rest => (attrValueTail rest).map (fun p => (op, p.1, p.2))
  | _ => (attrValueTail l).map (fun p => (op, p.1, p.2))

/-- Operator group: an optional character of [!^$*~|] (greedy), then an
equals sign.  The two branches exclude each other on the first
character, so no backtracking interplay arises. -/
def attrOpValue (l : List Char) : Option (String × String × List Char) :=
  match l with
  | c :: rest =>
    if isOpChar c then
      match rest with
      | '=' :: rest2 => attrAfterOp (String.mk [c, '=']) rest2
      | _ => none
    else if c = '=' then attrAfterOp "=" rest
    else none
  | [] => none

/-- Greedy backtracking over the attribute-name group: accRev is the
candidate name reversed, longest first; on failure its last character
returns to the unread tail, exactly the regex shrinking a greedy group. -/
def attrTryName : List Char → List Char → Option ((String × String × String) × List Char)
  | [], _ => none
  | a :: accRev, after =>
    match attrOpValue after with
    | some (op, v, r) => some (((a :: accRev).reverse.asString, op, v), r)
    | none => attrTryName accRev (a :: after)

/-- Attempt to match the attribute pattern right after an opening
bracket. -/
def attrTry (l : List Char) : Option ((String × String × String) × List Char) :=
  attrTryName (l.takeWhile isAttrNameChar).reverse (l.dropWhile isAttrNameChar)

/-- re.findall of the attribute pattern: a bracket, the name group, the
operator group, the quoted value, a closing bracket.  Scanning advances
one character on failure and past the whole match on success.  Fuel is
the length of the input. -/
def attrScan : Nat → List Char → List (String × String × String)
  | 0, _ => []
  | _ + 1, [] => []
  | f + 1, '[' :: rest =>
    match attrTry rest with
    | some (a, r) => a :: attrScan f r
    | none => attrScan f rest
  | f + 1, _ :: rest => attrScan f rest

/-- re.sub removing every bracket block (an opening bracket, one or more
non-closing-bracket characters, a closing bracket). -/
def stripBrackets : Nat → List Char → List Char
  | 0, l => l
  | _ + 1, [] => []
  | f + 1, '[' :: rest =>
    let run := rest.takeWhile (fun c => c ≠ ']')
    match rest.dropWhile (fun c => c ≠ ']') with
    | ']' :: r => if run.isEmpty then '[' :: stripBrackets f rest else stripBrackets f r
    | _ => '[' :: stripBrackets f rest
  | f + 1, c :: rest => c :: stripBrackets f rest

/-- Python dict insertion for the attributes dict: an existing name keeps
its position and takes the new pair, a new name is appended. -/
def attrDictInsert : List (String × String × String) → String × String × String → List (String × String × String)
  | [], a => [a]
  | (n0, o0, v0) :: es, (n, o, v) =>
    if n0 = n then (n, o, v) :: es else (n0, o0, v0) :: attrDictInsert es (n, o, v)

/-- Builds part.attributes from the findall matches in order. -/
def attrDict (ms : List (String × String × String)) : List (String × String × String) :=
  ms.foldl attrDictInsert []

/-- Mirrors AdvancedSelectorParser._parse_single_selector: extract the
pseudo-selectors, remove them, findall the attribute blocks, remove every
bracket block, and the stripped remainder (empty string meaning none) is
the element type. -/
def parseSingleSelector (selector : String) : SelectorPart :=
  let l := selector.toList
  let (pseudos, noPseudo) := pseudoScan l.length l
  let attrs := attrDict (attrScan noPseudo.length noPseudo)
  let noAttr := stripBrackets noPseudo.length noPseudo
  let et := pyStripL noAttr
  { element_type := if et.isEmpty then none else some et.asString
    attributes := attrs
    pseudo_selectors := pseudos }

/-- Spatial keywords in the alternation order of the source pattern. -/
def spatialKeywords : List String :=
  ["near", "above", "below", "left_of", "right_of", "inside", "contains"]

/-- Alternation over the spatial keywords at a fixed position, each
required to be followed by at least one whitespace character, which the
trailing greedy run then consumes up to the match end. -/
def spatialTryKw : List String → List Char → Option (String × List Char)
  | [], _ => none
  | kw :: kws, l =>
    if startsWithL kw.toList l then
      let after := l.drop kw.length
      if (after.takeWhile isPySpace).isEmpty then spatialTryKw kws l
      else some (kw, after.dropWhile isPySpace)
    else spatialTryKw kws l

/-- re.search of the spatial pattern: whitespace, a keyword, whitespace.
Returns the text before the match, the keyword, and the text after the
match.  Trying every start position one character at a time subsumes the
shrinking of the leading greedy whitespace run. -/
def spatialSearch : Nat → List Char → List Char → Option (String × String × String)
  | 0, _, _ => none
  | _ + 1, _, [] => none
  | f + 1, accRev, c :: rest =>
    if isPySpace c then
      match spatialTryKw spatialKeywords ((c :: rest).dropWhile isPySpace) with
      | some (kw, afterAll) => some (accRev.reverse.asString, kw, afterAll.asString)
      | none => spatialSearch f (c :: accRev) rest
    else spatialSearch f (c :: accRev) rest

/-- Body of AdvancedSelectorParser.parse past the availability gate:
search for a spatial clause; when one is found, parse the part before it
and record the relation and the stripped target string, else parse the
whole stripped selector as a single part. -/
def parseParts (selector : String) : List SelectorPart :=
  let cur := pyStripL selector.toList
  match spatialSearch cur.length [] cur with
  | some (pre, kw, post) =>
    [{ parseSingleSelector (pyStrip pre) with
        spatial_relation := some kw
        spatial_target := some (pyStrip post) }]
  | none => [parseSingleSelector cur.asString]

/-- Mirrors AdvancedSelectorParser.parse.  The availability flag stands
for platform.system() == 'Linux' captured at construction; when it is
false every call raises RuntimeError, modelled as the error case. -/
def parse (avail : Bool) (selector : String) : Except String (List SelectorPart) :=
  if avail = false then
    .error "Advanced selectors only available on Linux systems"
  else .ok (parseParts selector)

/-- Attribute operator table ATTR_OPERATORS, with the exact-match
fallback of matches_element for an operator outside the table. -/
def attrOpHolds (op : String) (v target : String) : Bool :=
  match op with
  | "=" => v = target
  | "!=" => v ≠ target
  | "^=" => startsWithL target.toList v.toList
  | "$=" => startsWithL target.toList.reverse v.toList.reverse
  | "*=" => infixOfL target.toList v.toList
  | "~=" => (pySplit v).contains target
  | "|=" => v = target || startsWithL (target ++ "-").toList v.toList
  | _ => v = target

/-- Pseudo-selector table PSEUDO_SELECTORS; a name outside the table is
skipped by the matcher, which the final catch-all true reproduces. -/
def pseudoHolds (w : Widget) (p : String) : Bool :=
  match p with
  | "visible" => w.visible.getD true
  | "hidden" => !(w.visible.getD true)
  | "enabled" => w.enabled.getD true
  | "disabled" => !(w.enabled.getD true)
  | "focused" => w.focused.getD false
  | "selected" => w.selected.getD false
  | "checked" => w.checked.getD false
  | "empty" => (pyStripL (w.text.getD "").toList).isEmpty
  | "first" => true
  | "last" => true
  | _ => true

/-- Mirrors AdvancedSelectorParser.matches_element: the type token must
be a case-insensitive substring of the role, every attribute predicate
must hold on the stringified field, every known pseudo-selector must
hold; the three groups combine by conjunction. -/
def matchesElement (w : Widget) (part : SelectorPart) : Bool :=
  (match part.element_type with
   | some et => infixOfL (pyLower et).toList (pyLower (w.role.getD "")).toList
   | none => true)
  && part.attributes.all (fun a => attrOpHolds a.2.1 (widgetAttrStr w a.1) a.2.2)
  && part.pseudo_selectors.all (fun p => pseudoHolds w p)

/-!
Cache and performance monitoring, from
src/interpreter/core/computer/asq/modules/performance.py.  Cached values
and workflow action results are modelled by one Python-value type.
-/

/-- Python values that cross the boundaries modelled here: the action
results of workflow steps and the values stored by the element cache.
pylist carries only its length, all the matcher needs for truthiness. -/
inductive PyVal where
  | pynone : PyVal
  | pybool : Bool → PyVal
  | pyint : Int → PyVal
  | pystr : String → PyVal
  | pylist : Nat → PyVal
deriving DecidableEq

/-- Python == against False: False, 0 (and 0.0, subsumed by pyint) are
equal to False; None, strings and lists are not. -/
def pyEqFalse : PyVal → Bool
  | .pybool b => !b
  | .pyint n => n = 0
  | _ => false

/-- State of ElementCache: the two dicts _cache and _timestamps merged
into one ordered association list keyed by the cache key, preserving
Python dict insertion order, plus the constructor parameters. -/
structure CacheState where
  max_size : Nat
  ttl : Nat
  entries : List (String × PyVal × Nat)
deriving DecidableEq

/-- Keys of the cache in dict order. -/
def keysOf (es : List (String × PyVal × Nat)) : List String := es.map (·.1)

/-- Dict lookup: value and timestamp of the first entry with the key. -/
def lookupEntry : List (String × PyVal × Nat) → String → Option (PyVal × Nat)
  | [], _ => none
  | (k0, v0, t0) :: es, k => if k0 = k then some (v0, t0) else lookupEntry es k

/-- Dict deletion: removes the entry with the key (the first, and with
the dict invariant the only, occurrence). -/
def eraseKey (k : String) : List (String × PyVal × Nat) → List (String × PyVal × Nat)
  | [] => []
  | (k0, v0, t0) :: es => if k0 = k then es else (k0, v0, t0) :: eraseKey k es

/-- Dict write of _cache[key] and _timestamps[key]: an existing key keeps
its position and takes the new value and timestamp, a new key is
appended. -/
def dictSet : List (String × PyVal × Nat) → String → PyVal → Nat → List (String × PyVal × Nat)
  | [], k, v, t => [(k, v, t)]
  | (k0, v0, t0) :: es, k, v, t =>
    if k0 = k then (k, v, t) :: es else (k0, v0, t0) :: dictSet es k v t

/-- Helper of min(timestamps, key=get): fold keeping the first entry with
the strictly smallest timestamp. -/
def oldestAux (best : String × PyVal × Nat) : List (String × PyVal × Nat) → String × PyVal × Nat
  | [] => best
  | e :: es => oldestAux (if e.2.2 < best.2.2 then e else best) es

/-- min(self._timestamps.keys(), key=self._timestamps.get) as the full
entry; none exactly when the dict is empty, where Python min raises
ValueError. -/
def oldestEntry : List (String × PyVal × Nat) → Option (String × PyVal × Nat)
  | [] => none
  | e :: es => some (oldestAux e es)

/-- Mirrors ElementCache.get at wall-clock time t: a missing key is a
miss; an entry older than the ttl is deleted and reported as a miss; a
live entry is returned with the cache unchanged. -/
def cacheGet (t : Nat) (k : String) (st : CacheState) : Option PyVal × CacheState :=
  match lookupEntry st.entries k with
  | none => (none, st)
  | some (v, ts) =>
    if t - ts > st.ttl then (none, { st with entries := eraseKey k st.entries })
    else (some v, st)

/-- Mirrors ElementCache.set at wall-clock time t: when the entry count
has reached max_size the entry with the oldest timestamp (first in dict
order on ties) is deleted first, then the key is written.  none models
the ValueError of min over an empty dict (only reachable when
max_size = 0), raised before any mutation. -/
def cacheSet (t : Nat) (k : String) (v : PyVal) (st : CacheState) : Option CacheState :=
  if st.entries.length ≥ st.max_size then
    match oldestEntry st.entries with
    | none => none
    | some e0 => some { st with entries := dictSet (eraseKey e0.1 st.entries) k v t }
  else some { st with entries := dictSet st.entries k v t }

/-- Mirrors ElementCache.clear. -/
def cacheClear (st : CacheState) : CacheState := { st with entries := [] }

/-- One client call against the cache, timestamped by the caller. -/
inductive CacheOp where
  | opGet : Nat → String → CacheOp
  | opSet : Nat → String → PyVal → CacheOp
  | opClear : CacheOp

/-- Applies one call; a set that raises ValueError leaves the state
unmutated (the exception fires before any write). -/
def applyOp (st : CacheState) : CacheOp → CacheState
  | .opGet t k => (cacheGet t k st).2
  | .opSet t k v => (cacheSet t k v st).getD st
  | .opClear => cacheClear st

/-- Freshly constructed ElementCache(max_size, ttl). -/
def emptyCache (m ttl : Nat) : CacheState := ⟨m, ttl, []⟩

/-- Runs a sequence of client calls against a fresh cache. -/
def runOps (m ttl : Nat) (ops : List CacheOp) : CacheState :=
  ops.foldl applyOp (emptyCache m ttl)

/-- Inserts the keys in order with a common timestamp and value, each
through ElementCache.set. -/
def insertAll (m ttl t : Nat) (v : PyVal) (ks : List String) : CacheState :=
  ks.foldl (fun st k => (cacheSet t k v st).getD st) (emptyCache m ttl)

/-- Process-lifetime state of the performance module: the global
element_cache (constructed with max_size 100 and ttl 30.0) and the
cache_hits / cache_misses counters of the global PerformanceMonitor. -/
structure PerfState where
  cache : CacheState
  hits : Nat
  misses : Nat
deriving DecidableEq

/-- Mirrors one call through the wrapper made by the cached decorator:
get from the global element_cache; a result that is not None is a hit
and is returned; otherwise the miss counter is bumped, the wrapped
function's value (compute) is produced and stored.  The ttlArg parameter
reproduces the decorator's ttl argument, which the body never reads: the
lookup and the store go through the global cache with its own ttl. -/
def cachedCall (ttlArg : Nat) (key : String) (compute : PyVal) (t : Nat)
    (st : PerfState) : PyVal × PerfState :=
  let got := cacheGet t key st.cache
  match got.1 with
  | some v =>
    if v = .pynone then
      (compute, ⟨(cacheSet t key compute got.2).getD got.2, st.hits, st.misses + 1⟩)
    else (v, ⟨got.2, st.hits + 1, st.misses⟩)
  | none =>
    (compute, ⟨(cacheSet t key compute got.2).getD got.2, st.hits, st.misses + 1⟩)

/-- Cache block of PerformanceMonitor.get_stats together with the
element_cache.size() line of get_performance_report. -/
structure CacheReport where
  hits : Nat
  misses : Nat
  hit_rate : ℚ
  size : Nat

/-- Mirrors get_stats()['cache'] plus the report's cache-size line:
hit_rate is hits/(hits+misses) when any lookup happened, else 0. -/
def perfReport (st : PerfState) : CacheReport :=
  ⟨st.hits, st.misses,
    if st.hits + st.misses > 0 then (st.hits : ℚ) / ((st.hits : ℚ) + (st.misses : ℚ)) else 0,
    st.cache.entries.length⟩

/-- Mirrors ASQ.clear_cache (src/interpreter/core/computer/asq/asq.py):
element_cache.clear() then performance_monitor.clear_stats(), zeroing the
hit and miss counters. -/
def clearCache (st : PerfState) : PerfState := ⟨cacheClear st.cache, 0, 0⟩

/-!
Workflow step executor, from
src/interpreter/core/computer/asq/modules/workflow_automation.py.
-/

/-- Run-level status of WorkflowResult (WorkflowStatus enum). -/
inductive WorkflowStatus where
  | success : WorkflowStatus
  | failed : WorkflowStatus
  | partialStatus : WorkflowStatus
  | timedOut : WorkflowStatus
  | cancelled : WorkflowStatus
deriving DecidableEq

/-- What one invocation of a step's action does: return a value, or
raise an exception. -/
inductive AttemptOutcome where
  | raises : AttemptOutcome
  | returns : PyVal → AttemptOutcome
deriving DecidableEq

/-- Mirrors the success test of _execute_steps:
result is True or (result is not None and result != False). -/
def stepResultOk : PyVal → Bool
  | .pynone => false
  | .pybool b => b
  | .pyint n => n ≠ 0
  | .pystr _ => true
  | .pylist _ => true

/-- Did this invocation count as a success? -/
def attemptOk : AttemptOutcome → Bool
  | .raises => false
  | .returns v => stepResultOk v

/-- Did this invocation raise? -/
def attemptRaises : AttemptOutcome → Bool
  | .raises => true
  | .returns _ => false

/-- One workflow step (dataclass WorkflowStep).  The opaque action with
its bound args/kwargs is modelled as the outcome of its i-th invocation,
and dur i as the wall-clock seconds that invocation takes; timeout is
the step's declared timeout in seconds. -/
structure WStep where
  name : String
  action : Nat → AttemptOutcome
  dur : Nat → Nat
  timeout : Nat
  retry_count : Nat
  required : Bool

/-- Result of a run (dataclass WorkflowResult); the opaque context dict
is passed through unchanged into data. -/
structure WorkflowResult where
  status : WorkflowStatus
  completed_steps : List String
  failed_step : Option String
  error_message : Option String
  execution_time : Nat
  data : List (String × String)
deriving DecidableEq

/-- Mirrors the attempt loop of _execute_steps for one step:
for attempt in range(retry_count), invoke the action; a success breaks
out; an exception is caught and, when another attempt remains, is
followed by a fixed time.sleep(1.0); after any unsuccessful attempt the
loop breaks once the elapsed time since the step started exceeds the
step's timeout.  Returns (success, invocations used, elapsed seconds);
i is the next attempt index, r the remaining iterations. -/
def attemptLoop (st : WStep) : Nat → Nat → Nat → Nat → Bool × Nat × Nat
  | _, 0, e, u => (false, u, e)
  | i, r + 1, e, u =>
    match st.action i with
    | .returns v =>
      let e1 := e + st.dur i
      if stepResultOk v then (true, u + 1, e1)
      else if e1 > st.timeout then (false, u + 1, e1)
      else attemptLoop st (i + 1) r e1 (u + 1)
    | .raises =>
      let e1 := e + st.dur i
      let e2 := if i + 1 < st.retry_count then e1 + 1 else e1
      if e2 > st.timeout then (false, u + 1, e2)
      else attemptLoop st (i + 1) r e2 (u + 1)

/-- One step's whole attempt loop from a fresh step_start. -/
def runStep (st : WStep) : Bool × Nat × Nat := attemptLoop st 0 st.retry_count 0 0

/-- Did the step end successful? -/
def stepSucceeds (st : WStep) : Bool := (runStep st).1

/-- Invocations the step consumed. -/
def stepUsed (st : WStep) : Nat := (runStep st).2.1

/-- Wall-clock seconds the step consumed. -/
def stepElapsed (st : WStep) : Nat := (runStep st).2.2

/-- Mirrors the step loop of _execute_steps, with a ghost trace of
(step name, invocations) for every step that was started.  total is the
length of the full step list, clock the elapsed run time so far. -/
def execStepsAux (total : Nat) (ctx : List (String × String)) :
    List WStep → Nat → List String → List (String × Nat) →
    WorkflowResult × List (String × Nat)
  | [], clock, completed, trace =>
    (⟨if completed.length = total then .success else .partialStatus,
      completed, none, none, clock, ctx⟩, trace)
  | st :: rest, clock, completed, trace =>
    let r := runStep st
    let clock1 := clock + r.2.2
    let trace1 := trace ++ [(st.name, r.2.1)]
    if r.1 then execStepsAux total ctx rest clock1 (completed ++ [st.name]) trace1
    else if st.required then
      (⟨.failed, completed, some st.name,
        some ("Required step '" ++ st.name ++ "' failed"), clock1, ctx⟩, trace1)
    else execStepsAux total ctx rest clock1 completed trace1

/-- Mirrors WorkflowAutomation._execute_steps on a step list and a
context dict: a required step whose attempts exhaust aborts the run as
Failed; otherwise the run ends Succeeded when every step completed and
Partial otherwise.  The second component is the ghost invocation trace. -/
def execSteps (steps : List WStep) (ctx : List (String × String)) :
    WorkflowResult × List (String × Nat) :=
  execStepsAux steps.length ctx steps 0 [] []

/-!
Claim theorems.
-/

/-- Widget named search_box with a text role, the spec's positive example
for the prefix operator. -/
def searchBoxWidget : Widget := { name := some "search_box", role := some "text" }

/-- Widget named my_search with a text role, the spec's negative example. -/
def mySearchWidget : Widget := { name := some "my_search", role := some "text" }

/-- C1: the claim fails on the code.  The attribute regex's name group
[^=\]]+ greedily swallows the first character of every two-character
operator, so text[name^="search"] parses to the attribute (name^, =,
search) instead of (name, ^=, search); matching then reads the
nonexistent field name^ as the empty string and compares it for equality
with "search", so the selector matches neither search_box nor my_search,
although the module's own docstrings and get_selector_examples promise
prefix semantics. -/
theorem c1_attr_operator_not_parsed :
    parse true "text[name^=\"search\"]" =
      Except.ok [{ element_type := some "text",
                   attributes := [("name^", "=", "search")] }]
    ∧ matchesElement searchBoxWidget
        { element_type := some "text", attributes := [("name^", "=", "search")] } = false
    ∧ matchesElement mySearchWidget
        { element_type := some "text", attributes := [("name^", "=", "search")] } = false
    ∧ attrOpHolds "^=" "search_box" "search" = true
    ∧ attrOpHolds "^=" "my_search" "search" = false :=
  ⟨rfl, rfl, rfl, rfl, rfl⟩

/-- C10: with the availability flag false (platform.system() is not
Linux) parse raises RuntimeError on every input; with it true (Linux)
parse returns a parsed result on every input and never raises. -/
theorem c10_parse_platform_gate :
    (∀ s : String,
        parse false s = Except.error "Advanced selectors only available on Linux systems")
    ∧ (∀ s : String, (parse true s).isOk = true) :=
  ⟨fun _ => rfl, fun _ => rfl⟩

/-- Step named step2 whose action always returns None, with the default
retry_count 3 and timeout 10, required. -/
def stepAlwaysNone : WStep :=
  ⟨"step2", fun _ => .returns .pynone, fun _ => 0, 10, 3, true⟩

/-- C2 counterexample: with retry_count 3, zero-duration attempts and a
10 second timeout (so the timeout check never aborts), the never-
succeeding required action is invoked exactly 3 times, not
retry_count + 1 = 4, before the step is declared failed. -/
theorem c2_cex_three_attempts :
    (execSteps [stepAlwaysNone] []).2 = [("step2", 3)]
    ∧ (execSteps [stepAlwaysNone] []).1.status = .failed
    ∧ ¬((3 : Nat) = stepAlwaysNone.retry_count + 1) := by
  refine ⟨rfl, rfl, by decide⟩

/-- Number of time.sleep(1.0) backoffs the attempt window [i, i+r) of
the loop performs: one after each raising attempt that is not the last
scheduled one. -/
def sleepCount (st : WStep) : Nat → Nat → Nat
  | _, 0 => 0
  | i, r + 1 =>
    (match st.action i with
     | .raises => if i + 1 < st.retry_count then 1 else 0
     | .returns _ => 0)
      + sleepCount st (i + 1) r

/-- Backoff sleeps in a window ending at retry_count stay below the
window length: the last scheduled attempt never sleeps. -/
theorem sleepCount_le_sub_one (st : WStep) :
    ∀ r i, i + r = st.retry_count → sleepCount st i r ≤ r - 1 := by
  intro r
  induction r with
  | zero => intro i _; simp [sleepCount]
  | succ r ih =>
    intro i hi
    rcases Nat.eq_zero_or_pos r with hr | hr
    · subst hr
      have h1 : ¬(i + 1 < st.retry_count) := by omega
      cases hA : st.action i <;> simp [sleepCount, hA, h1]
    · have htail := ih (i + 1) (by omega)
      have hstep : sleepCount st i (r + 1) ≤ 1 + sleepCount st (i + 1) r := by
        cases hA : st.action i with
        | raises => simp only [sleepCount, hA]; split <;> omega
        | returns v => simp only [sleepCount, hA]; omega
      omega

/-- Attempt loop on a never-succeeding action with zero-duration
invocations: every scheduled attempt runs and the elapsed time is
exactly the backoff sleeps, provided they stay within the timeout. -/
theorem attemptLoop_all_fail (st : WStep)
    (hfail : ∀ i, attemptOk (st.action i) = false)
    (hdur : ∀ i, st.dur i = 0) :
    ∀ r i e u, e + sleepCount st i r ≤ st.timeout →
      attemptLoop st i r e u = (false, u + r, e + sleepCount st i r) := by
  intro r
  induction r with
  | zero => intro i e u _; simp [attemptLoop, sleepCount]
  | succ r ih =>
    intro i e u hb
    have hd : st.dur i = 0 := hdur i
    cases hA : st.action i with
    | returns v =>
      have hv : stepResultOk v = false := by
        have := hfail i; rwa [hA, attemptOk] at this
      have hcount : sleepCount st i (r + 1) = sleepCount st (i + 1) r := by
        simp only [sleepCount, hA, Nat.zero_add]
      have hb' : e + sleepCount st (i + 1) r ≤ st.timeout := by
        rw [hcount] at hb; exact hb
      have hniet : ¬(e + st.dur i > st.timeout) := by rw [hd]; omega
      have hrec := ih (i + 1) (e + st.dur i) (u + 1) (by rw [hd]; omega)
      simp only [attemptLoop, hA, hv, Bool.false_eq_true, if_false]
      rw [if_neg hniet, hrec, hcount, hd]
      simp only [Prod.mk.injEq, true_and]
      exact ⟨by omega, by omega⟩
    | raises =>
      by_cases hlt : i + 1 < st.retry_count
      · have hcount : sleepCount st i (r + 1) = 1 + sleepCount st (i + 1) r := by
          simp only [sleepCount, hA, if_pos hlt]
        have hb' : e + (1 + sleepCount st (i + 1) r) ≤ st.timeout := by
          rw [hcount] at hb; exact hb
        have hniet : ¬(e + st.dur i + 1 > st.timeout) := by rw [hd]; omega
        have hrec := ih (i + 1) (e + st.dur i + 1) (u + 1) (by rw [hd]; omega)
        simp only [attemptLoop, hA]
        rw [if_pos hlt, if_neg hniet, hrec, hcount, hd]
        simp only [Prod.mk.injEq, true_and]
        exact ⟨by omega, by omega⟩
      · have hcount : sleepCount st i (r + 1) = sleepCount st (i + 1) r := by
          simp only [sleepCount, hA, if_neg hlt, Nat.zero_add]
        have hb' : e + sleepCount st (i + 1) r ≤ st.timeout := by
          rw [hcount] at hb; exact hb
        have hniet : ¬(e + st.dur i > st.timeout) := by rw [hd]; omega
        have hrec := ih (i + 1) (e + st.dur i) (u + 1) (by rw [hd]; omega)
        simp only [attemptLoop, hA]
        rw [if_neg hlt, if_neg hniet, hrec, hcount, hd]
        simp only [Prod.mk.injEq, true_and]
        exact ⟨by omega, by omega⟩

/-- C2 amended: a step whose action never succeeds, with zero-duration
invocations and retry_count at most timeout + 1 (so the timeout check
never aborts the loop), is invoked exactly retry_count times - not
retry_count + 1 - before the step is declared failed, and the elapsed
time equals the fixed 1-second backoff sleeps, which happen only after
an attempt that raised and is not the last scheduled one. -/
theorem c2_retry_count (st : WStep)
    (hfail : ∀ i, attemptOk (st.action i) = false)
    (hdur : ∀ i, st.dur i = 0)
    (hto : st.retry_count ≤ st.timeout + 1) :
    runStep st = (false, st.retry_count, sleepCount st 0 st.retry_count) := by
  have hb : 0 + sleepCount st 0 st.retry_count ≤ st.timeout := by
    have := sleepCount_le_sub_one st st.retry_count 0 (by omega)
    omega
  have := attemptLoop_all_fail st hfail hdur st.retry_count 0 0 0 hb
  simpa [runStep] using this

/-- Step whose action always raises, used to exercise the backoff
accounting of the amended C2. -/
def stepAlwaysRaises : WStep :=
  ⟨"w", fun _ => .raises, fun _ => 0, 10, 3, true⟩

/-- Witness for the amended C2 at a concrete always-raising step:
3 invocations and 2 one-second backoff sleeps. -/
theorem c2_retry_count_w :
    (∀ i, attemptOk (stepAlwaysRaises.action i) = false)
    ∧ (∀ i, stepAlwaysRaises.dur i = 0)
    ∧ stepAlwaysRaises.retry_count ≤ stepAlwaysRaises.timeout + 1
    ∧ runStep stepAlwaysRaises =
        (false, stepAlwaysRaises.retry_count, sleepCount stepAlwaysRaises 0 stepAlwaysRaises.retry_count) :=
  ⟨fun _ => rfl, fun _ => rfl, by decide,
    c2_retry_count stepAlwaysRaises (fun _ => rfl) (fun _ => rfl) (by decide)⟩

/-- Step whose action returns the empty string on every attempt. -/
def stepEmptyString : WStep :=
  ⟨"s1", fun _ => .returns (.pystr ""), fun _ => 0, 10, 3, true⟩

/-- C3 counterexample: an attempt returning the empty string counts as a
success (the step completes on its first invocation), although the claim
says an empty string counts as a failed attempt. -/
theorem c3_cex_empty_string_succeeds :
    (execSteps [stepEmptyString] []).1.status = .success
    ∧ (execSteps [stepEmptyString] []).1.completed_steps = ["s1"]
    ∧ (execSteps [stepEmptyString] []).2 = [("s1", 1)] :=
  ⟨rfl, rfl, rfl⟩

/-- Step that raises on its first invocation and returns True on the
second. -/
def stepRaiseThenTrue : WStep :=
  ⟨"r", fun i => if i = 0 then .raises else .returns (.pybool true), fun _ => 0, 10, 3, true⟩

/-- C3 amended: an attempt counts as a success iff the returned value is
not None and not ==-equal to False (None, False and zero fail; empty
strings and empty collections succeed), and an exception is caught and
counted as a failed attempt rather than propagated: a step raising once
then returning True succeeds after 2 invocations and 1 backoff sleep. -/
theorem c3_success_criterion :
    (∀ v : PyVal, stepResultOk v = true ↔ (v ≠ .pynone ∧ pyEqFalse v = false))
    ∧ stepResultOk (.pystr "") = true
    ∧ stepResultOk (.pylist 0) = true
    ∧ stepResultOk (.pyint 0) = false
    ∧ stepResultOk (.pybool false) = false
    ∧ stepResultOk .pynone = false
    ∧ runStep stepRaiseThenTrue = (true, 2, 1)
    ∧ (execSteps [stepRaiseThenTrue] []).1.status = .success := by
  refine ⟨fun v => ?_, rfl, rfl, by decide, rfl, rfl, by decide, by decide⟩
  cases v <;> simp [stepResultOk, pyEqFalse]

/-- Global state at import time: element_cache = ElementCache() with
max_size 100 and ttl 30.0, and zeroed monitor counters. -/
def perfInit : PerfState := ⟨⟨100, 30, []⟩, 0, 0⟩

/-- C8: the claim fails on the code.  The ttl parameter of the cached
decorator (and hence the cache_ttl=60.0 of the optimized decorator on
ASQ.find_optimized) is accepted but never read: every lookup goes
through the global element_cache with its own 30-second ttl, so the
wrapper's behaviour is independent of the declared ttl, an entry written
through find_optimized is still served after 20 seconds but is expired
and recomputed after 45 seconds, well within the declared 60. -/
theorem c8_cached_ttl_ignored :
    (∀ (a b : Nat) (key : String) (compute : PyVal) (t : Nat) (st : PerfState),
        cachedCall a key compute t st = cachedCall b key compute t st)
    ∧ (cachedCall 60 "find_optimized:k" (.pystr "old") 0 perfInit).2.cache.entries
        = [("find_optimized:k", .pystr "old", 0)]
    ∧ (cachedCall 60 "find_optimized:k" (.pystr "fresh") 20
        ((cachedCall 60 "find_optimized:k" (.pystr "old") 0 perfInit).2)).1 = .pystr "old"
    ∧ (cachedCall 60 "find_optimized:k" (.pystr "fresh") 45
        ((cachedCall 60 "find_optimized:k" (.pystr "old") 0 perfInit).2)).1 = .pystr "fresh"
    ∧ (cachedCall 60 "find_optimized:k" (.pystr "fresh") 45
        ((cachedCall 60 "find_optimized:k" (.pystr "old") 0 perfInit).2)).2.cache.entries
        = [("find_optimized:k", .pystr "fresh", 45)] :=
  ⟨fun _ _ _ _ _ _ => rfl, rfl, rfl, rfl, rfl⟩

/-- C9: every lookup through the cached wrapper increments exactly one
of the global hit / miss counters; the stats snapshot reports the
counters, hit-rate hits/(hits+misses) (0 before any lookup) and the
entry count; ASQ.clear_cache resets the counters and the entries
together. -/
theorem c9_counters_report_clear :
    (∀ (ttlArg : Nat) (key : String) (compute : PyVal) (t : Nat) (st : PerfState),
        ((cachedCall ttlArg key compute t st).2.hits = st.hits + 1
          ∧ (cachedCall ttlArg key compute t st).2.misses = st.misses)
        ∨ ((cachedCall ttlArg key compute t st).2.hits = st.hits
          ∧ (cachedCall ttlArg key compute t st).2.misses = st.misses + 1))
    ∧ (∀ st : PerfState,
        (perfReport st).hits = st.hits
        ∧ (perfReport st).misses = st.misses
        ∧ (perfReport st).size = st.cache.entries.length
        ∧ (perfReport st).hit_rate =
            (if st.hits + st.misses > 0
             then (st.hits : ℚ) / ((st.hits : ℚ) + (st.misses : ℚ)) else 0))
    ∧ (∀ st : PerfState,
        (clearCache st).hits = 0 ∧ (clearCache st).misses = 0
        ∧ (clearCache st).cache.entries = []) := by
  refine ⟨fun ttlArg key compute t st => ?_, fun st => ⟨rfl, rfl, rfl, rfl⟩,
    fun st => ⟨rfl, rfl, rfl⟩⟩
  unfold cachedCall
  cases hg : (cacheGet t key st.cache).1 with
  | none => right; simp [hg]
  | some v =>
    by_cases hv : v = PyVal.pynone
    · right; simp [hg, hv]
    · left; simp [hg, hv]

/-- Elapsed wall time of a list of steps run in order. -/
def stepsElapsed (steps : List WStep) : Nat := (steps.map stepElapsed).sum

/-- Names, in order, of the steps of a list that succeed. -/
def succeededNames (steps : List WStep) : List String :=
  (steps.filter (fun s => stepSucceeds s)).map (fun s => s.name)

/-- Ghost trace of a list of steps that are all started. -/
def traceOf (steps : List WStep) : List (String × Nat) :=
  steps.map (fun s => (s.name, stepUsed s))

/-- Step loop on steps that all succeed or are optional: it runs to the
end, appending the successful names, summing the elapsed time and
tracing every step. -/
theorem execStepsAux_no_req_fail (total : Nat) (ctx : List (String × String)) :
    ∀ (steps : List WStep), (∀ s ∈ steps, stepSucceeds s = true ∨ s.required = false) →
    ∀ clock completed trace,
    execStepsAux total ctx steps clock completed trace =
      (⟨if (completed ++ succeededNames steps).length = total then .success else .partialStatus,
        completed ++ succeededNames steps, none, none,
        clock + stepsElapsed steps, ctx⟩,
       trace ++ traceOf steps) := by
  intro steps
  induction steps with
  | nil =>
    intro _ clock completed trace
    simp [execStepsAux, succeededNames, stepsElapsed, traceOf]
  | cons s rest ih =>
    intro h clock completed trace
    have hrest : ∀ x ∈ rest, stepSucceeds x = true ∨ x.required = false :=
      fun x hx => h x (List.mem_cons_of_mem s hx)
    cases hsx : stepSucceeds s with
    | true =>
      have hs1 : (runStep s).1 = true := hsx
      simp only [execStepsAux, hs1, if_true]
      rw [ih hrest (clock + (runStep s).2.2) (completed ++ [s.name]) (trace ++ [(s.name, (runStep s).2.1)])]
      simp [succeededNames, stepsElapsed, traceOf, List.filter_cons, hsx,
        stepElapsed, stepUsed, List.append_assoc, Nat.add_assoc,
        Prod.mk.injEq, WorkflowResult.mk.injEq]
    | false =>
      have hopt : s.required = false := by
        rcases h s (List.mem_cons_self s rest) with hs | hs
        · rw [hsx] at hs; cases hs
        · exact hs
      have hs1 : (runStep s).1 = false := hsx
      simp only [execStepsAux, hs1, Bool.false_eq_true, if_false, hopt]
      rw [ih hrest (clock + (runStep s).2.2) completed (trace ++ [(s.name, (runStep s).2.1)])]
      simp [succeededNames, stepsElapsed, traceOf, List.filter_cons, hsx,
        stepElapsed, stepUsed, List.append_assoc, Nat.add_assoc,
        Prod.mk.injEq, WorkflowResult.mk.injEq]

/-- Step loop hitting a required step that fails after steps that all
succeed or are optional: the run aborts there as Failed, with the prior
successes, the failing step's name and message, and no later step
started. -/
theorem execStepsAux_req_fail (total : Nat) (ctx : List (String × String))
    (st : WStep) (post : List WStep)
    (hst : stepSucceeds st = false) (hreq : st.required = true) :
    ∀ (pre : List WStep), (∀ s ∈ pre, stepSucceeds s = true ∨ s.required = false) →
    ∀ clock completed trace,
    execStepsAux total ctx (pre ++ st :: post) clock completed trace =
      (⟨.failed, completed ++ succeededNames pre, some st.name,
        some ("Required step '" ++ st.name ++ "' failed"),
        clock + stepsElapsed pre + stepElapsed st, ctx⟩,
       trace ++ traceOf pre ++ [(st.name, stepUsed st)]) := by
  intro pre
  induction pre with
  | nil =>
    intro _ clock completed trace
    have hs1 : (runStep st).1 = false := hst
    simp [execStepsAux, hs1, hreq, succeededNames, stepsElapsed, traceOf,
      stepElapsed, stepUsed]
  | cons s rest ih =>
    intro h clock completed trace
    have hrest : ∀ x ∈ rest, stepSucceeds x = true ∨ x.required = false :=
      fun x hx => h x (List.mem_cons_of_mem s hx)
    cases hsx : stepSucceeds s with
    | true =>
      have hs1 : (runStep s).1 = true := hsx
      rw [List.cons_append]
      simp only [execStepsAux, hs1, if_true]
      rw [ih hrest (clock + (runStep s).2.2) (completed ++ [s.name]) (trace ++ [(s.name, (runStep s).2.1)])]
      simp [succeededNames, stepsElapsed, traceOf, List.filter_cons, hsx,
        stepElapsed, stepUsed, List.append_assoc, Nat.add_assoc,
        Prod.mk.injEq, WorkflowResult.mk.injEq]
    | false =>
      have hopt : s.required = false := by
        rcases h s (List.mem_cons_self s rest) with hs | hs
        · rw [hsx] at hs; cases hs
        · exact hs
      have hs1 : (runStep s).1 = false := hsx
      rw [List.cons_append]
      simp only [execStepsAux, hs1, Bool.false_eq_true, if_false, hopt]
      rw [ih hrest (clock + (runStep s).2.2) completed (trace ++ [(s.name, (runStep s).2.1)])]
      simp [succeededNames, stepsElapsed, traceOf, List.filter_cons, hsx,
        stepElapsed, stepUsed, List.append_assoc, Nat.add_assoc,
        Prod.mk.injEq, WorkflowResult.mk.injEq]

/-- C4: when the steps before some required step all succeed or are
optional and that required step exhausts its attempts without success,
the run returns (never throws) a Failed result whose completed list is
exactly the names of the prior successful steps in order, whose
failed-step field is that step's name, whose error message is populated
at that last failure, and no later step is started. -/
theorem c4_required_failure (pre : List WStep) (st : WStep) (post : List WStep)
    (ctx : List (String × String))
    (hpre : ∀ s ∈ pre, stepSucceeds s = true ∨ s.required = false)
    (hst : stepSucceeds st = false) (hreq : st.required = true) :
    (execSteps (pre ++ st :: post) ctx).1.status = .failed
    ∧ (execSteps (pre ++ st :: post) ctx).1.completed_steps = succeededNames pre
    ∧ (execSteps (pre ++ st :: post) ctx).1.failed_step = some st.name
    ∧ (execSteps (pre ++ st :: post) ctx).1.error_message
        = some ("Required step '" ++ st.name ++ "' failed")
    ∧ (execSteps (pre ++ st :: post) ctx).2 = traceOf pre ++ [(st.name, stepUsed st)] := by
  have h := execStepsAux_req_fail (pre ++ st :: post).length ctx st post hst hreq pre hpre 0 [] []
  rw [execSteps, h]
  simp

/-- Workflow step named step1 that succeeds immediately. -/
def wStep1 : WStep := ⟨"step1", fun _ => .returns (.pybool true), fun _ => 0, 10, 3, true⟩

/-- Required workflow step named step2 that never succeeds. -/
def wStep2 : WStep := ⟨"step2", fun _ => .returns .pynone, fun _ => 0, 10, 3, true⟩

/-- Workflow step named step3 that succeeds immediately. -/
def wStep3 : WStep := ⟨"step3", fun _ => .returns (.pybool true), fun _ => 0, 10, 3, true⟩

/-- Optional workflow step named step2 that never succeeds. -/
def wStep2Opt : WStep := ⟨"step2", fun _ => .returns .pynone, fun _ => 0, 10, 3, false⟩

/-- Witness for C4 at the spec's three-step scenario: step1 succeeds,
required step2 exhausts its attempts, step3 is never started. -/
theorem c4_required_failure_w :
    (∀ s ∈ [wStep1], stepSucceeds s = true ∨ s.required = false)
    ∧ stepSucceeds wStep2 = false ∧ wStep2.required = true
    ∧ (execSteps [wStep1, wStep2, wStep3] []).1.status = .failed
    ∧ (execSteps [wStep1, wStep2, wStep3] []).1.completed_steps = succeededNames [wStep1]
    ∧ (execSteps [wStep1, wStep2, wStep3] []).1.failed_step = some wStep2.name
    ∧ (execSteps [wStep1, wStep2, wStep3] []).1.error_message
        = some ("Required step '" ++ wStep2.name ++ "' failed")
    ∧ (execSteps [wStep1, wStep2, wStep3] []).2 = traceOf [wStep1] ++ [(wStep2.name, stepUsed wStep2)] := by
  have h := c4_required_failure [wStep1] wStep2 [wStep3] [] (by decide) (by decide) rfl
  exact ⟨by decide, by decide, rfl, h.1, h.2.1, h.2.2.1, h.2.2.2.1, h.2.2.2.2⟩

/-- Steps both named dup: the first succeeds, the second is optional and
never succeeds. -/
def wDupA : WStep := ⟨"dup", fun _ => .returns (.pybool true), fun _ => 0, 10, 3, true⟩

/-- Second step named dup, optional and never succeeding. -/
def wDupB : WStep := ⟨"dup", fun _ => .returns .pynone, fun _ => 0, 10, 3, false⟩

/-- C5 counterexample: with two steps sharing the name dup, of which the
optional second fails, every step's name is in the completed list, yet
the status is Partial, not Succeeded: the code compares the number of
completed steps with the number of steps, not name membership. -/
theorem c5_cex_duplicate_names :
    (execSteps [wDupA, wDupB] []).1.status = .partialStatus
    ∧ ¬((execSteps [wDupA, wDupB] []).1.status = .success)
    ∧ (∀ s ∈ [wDupA, wDupB], s.name ∈ (execSteps [wDupA, wDupB] []).1.completed_steps) :=
  ⟨rfl, by decide, by decide⟩

/-- C5 amended: a run in which every step succeeds or is optional ends
with status Succeeded when the number of completed steps equals the
number of steps (with distinct names: every step's name completed) and
Partial otherwise, the completed list being exactly the names of the
successful steps in execution order and no failed step recorded. -/
theorem c5_final_status (steps : List WStep) (ctx : List (String × String))
    (h : ∀ s ∈ steps, stepSucceeds s = true ∨ s.required = false) :
    (execSteps steps ctx).1.status
      = (if (succeededNames steps).length = steps.length then .success else .partialStatus)
    ∧ (execSteps steps ctx).1.completed_steps = succeededNames steps
    ∧ (execSteps steps ctx).1.failed_step = none
    ∧ (execSteps steps ctx).1.error_message = none := by
  have hh := execStepsAux_no_req_fail steps.length ctx steps h 0 [] []
  rw [execSteps, hh]
  simp

/-- Witness for the amended C5 at the spec's scenario: steps 1 and 3
succeed, optional step 2 fails, so the run is Partial with completed
list [step1, step3]. -/
theorem c5_final_status_w :
    (∀ s ∈ [wStep1, wStep2Opt, wStep3], stepSucceeds s = true ∨ s.required = false)
    ∧ (execSteps [wStep1, wStep2Opt, wStep3] []).1.status
        = (if (succeededNames [wStep1, wStep2Opt, wStep3]).length = [wStep1, wStep2Opt, wStep3].length
           then .success else .partialStatus)
    ∧ (execSteps [wStep1, wStep2Opt, wStep3] []).1.completed_steps
        = succeededNames [wStep1, wStep2Opt, wStep3]
    ∧ (execSteps [wStep1, wStep2Opt, wStep3] []).1.status = .partialStatus
    ∧ (execSteps [wStep1, wStep2Opt, wStep3] []).1.completed_steps = ["step1", "step3"] := by
  have h := c5_final_status [wStep1, wStep2Opt, wStep3] [] (by decide)
  exact ⟨by decide, h.1, h.2.1, by decide, by decide⟩

/-- Lookup misses exactly off the key set. -/
theorem lookupEntry_eq_none (es : List (String × PyVal × Nat)) (k : String)
    (h : k ∉ keysOf es) : lookupEntry es k = none := by
  induction es with
  | nil => rfl
  | cons e es ih =>
    have hne : e.1 ≠ k := by
      intro hk; exact h (by simp [keysOf, hk])
    have : k ∉ keysOf es := fun hk => h (by simp [keysOf] at hk ⊢; right; exact hk)
    obtain ⟨k0, v0, t0⟩ := e
    simp only [lookupEntry, if_neg hne]
    exact ih this

/-- Deleting a key shortens the dict by at most one entry. -/
theorem eraseKey_length_le (k : String) (es : List (String × PyVal × Nat)) :
    (eraseKey k es).length ≤ es.length := by
  induction es with
  | nil => simp [eraseKey]
  | cons e es ih =>
    obtain ⟨k0, v0, t0⟩ := e
    by_cases h : k0 = k <;> simp [eraseKey, h] <;> omega

/-- Deleting a present key shortens the dict by exactly one entry. -/
theorem eraseKey_length_of_mem (k : String) (es : List (String × PyVal × Nat))
    (h : k ∈ keysOf es) : (eraseKey k es).length + 1 = es.length := by
  induction es with
  | nil => cases h
  | cons e es ih =>
    obtain ⟨k0, v0, t0⟩ := e
    by_cases hk : k0 = k
    · simp [eraseKey, hk]
    · rcases List.mem_cons.mp h with h1 | h1
      · exact absurd h1.symm hk
      · simp [eraseKey, hk, ih h1]

/-- Deleting a key erases exactly it from the key list. -/
theorem eraseKey_keys (k : String) (es : List (String × PyVal × Nat)) :
    keysOf (eraseKey k es) = (keysOf es).erase k := by
  induction es with
  | nil => rfl
  | cons e es ih =>
    obtain ⟨k0, v0, t0⟩ := e
    by_cases h : k0 = k
    · simp [eraseKey, keysOf, h, List.erase_cons_head]
    · rw [show keysOf ((k0, v0, t0) :: es) = k0 :: keysOf es from rfl,
        List.erase_cons_tail (by simpa using h)]
      simp only [eraseKey, if_neg h]
      rw [show keysOf ((k0, v0, t0) :: eraseKey k es) = k0 :: keysOf (eraseKey k es) from rfl, ih]

/-- An entry with a different key survives deletion. -/
theorem mem_eraseKey (k : String) (es : List (String × PyVal × Nat))
    (e : String × PyVal × Nat) (he : e ∈ es) (hne : e.1 ≠ k) :
    e ∈ eraseKey k es := by
  induction es with
  | nil => cases he
  | cons x es ih =>
    obtain ⟨k0, v0, t0⟩ := x
    by_cases h : k0 = k
    · simp only [eraseKey, if_pos h]
      rcases List.mem_cons.mp he with h1 | h1
      · exact absurd (by rw [h1]; exact h) hne
      · exact h1
    · simp only [eraseKey, if_neg h]
      rcases List.mem_cons.mp he with h1 | h1
      · exact h1 ▸ List.mem_cons_self _ _
      · exact List.mem_cons_of_mem _ (ih h1)

/-- After deletion with no duplicate keys, the key misses. -/
theorem lookupEntry_eraseKey_self (k : String) (es : List (String × PyVal × Nat))
    (hnd : (keysOf es).Nodup) : lookupEntry (eraseKey k es) k = none := by
  induction es with
  | nil => rfl
  | cons e es ih =>
    obtain ⟨k0, v0, t0⟩ := e
    have hnd' : (keysOf es).Nodup := (List.nodup_cons.mp hnd).2
    by_cases h : k0 = k
    · have hout : k0 ∉ keysOf es := (List.nodup_cons.mp hnd).1
      simp only [eraseKey, if_pos h]
      exact lookupEntry_eq_none es k (h ▸ hout)
    · simp only [eraseKey, if_neg h, lookupEntry, if_neg h]
      exact ih hnd'

/-- Writing a key changes the dict length only when the key is new. -/
theorem dictSet_length (es : List (String × PyVal × Nat)) (k : String) (v : PyVal) (t : Nat) :
    (dictSet es k v t).length = if k ∈ keysOf es then es.length else es.length + 1 := by
  induction es with
  | nil => simp [dictSet, keysOf]
  | cons e es ih =>
    obtain ⟨k0, v0, t0⟩ := e
    by_cases h : k0 = k
    · simp [dictSet, h, keysOf]
    · have : (k ∈ keysOf ((k0, v0, t0) :: es)) = (k ∈ keysOf es) := by
        simp [keysOf]
        intro hk; exact absurd hk.symm h
      simp only [dictSet, if_neg h, List.length_cons, ih, this]
      by_cases hm : k ∈ keysOf es <;> simp [hm]

/-- Writing a fresh key appends it to the key list. -/
theorem dictSet_keys_fresh (es : List (String × PyVal × Nat)) (k : String) (v : PyVal) (t : Nat)
    (h : k ∉ keysOf es) : keysOf (dictSet es k v t) = keysOf es ++ [k] := by
  induction es with
  | nil => rfl
  | cons e es ih =>
    obtain ⟨k0, v0, t0⟩ := e
    have hne : k0 ≠ k := by
      intro hk; exact h (by simp [keysOf, hk])
    have h' : k ∉ keysOf es := fun hk => h (by simp [keysOf] at hk ⊢; right; exact hk)
    simp only [dictSet, if_neg hne]
    rw [show keysOf ((k0, v0, t0) :: dictSet es k v t) = k0 :: keysOf (dictSet es k v t) from rfl,
      ih h', show keysOf ((k0, v0, t0) :: es) = k0 :: keysOf es from rfl, List.cons_append]

/-- The running minimum is the seed or a list element. -/
theorem oldestAux_mem (es : List (String × PyVal × Nat)) :
    ∀ best, oldestAux best es = best ∨ oldestAux best es ∈ es := by
  induction es with
  | nil => intro best; left; rfl
  | cons e es ih =>
    intro best
    rcases ih (if e.2.2 < best.2.2 then e else best) with h | h
    · rw [oldestAux, h]
      by_cases hc : e.2.2 < best.2.2
      · right; rw [if_pos hc]; exact List.mem_cons_self _ _
      · left; rw [if_neg hc]
    · right
      rw [oldestAux]
      exact List.mem_cons_of_mem _ h

/-- The running minimum is no later than the seed and than any element. -/
theorem oldestAux_le (es : List (String × PyVal × Nat)) :
    ∀ best, (oldestAux best es).2.2 ≤ best.2.2
      ∧ ∀ e ∈ es, (oldestAux best es).2.2 ≤ e.2.2 := by
  induction es with
  | nil => intro best; exact ⟨Nat.le_refl _, by intro e he; cases he⟩
  | cons x es ih =>
    intro best
    have hx := ih (if x.2.2 < best.2.2 then x else best)
    have hseed : (if x.2.2 < best.2.2 then x else best).2.2 ≤ best.2.2 := by
      by_cases hc : x.2.2 < best.2.2
      · rw [if_pos hc]; omega
      · rw [if_neg hc]
    have hxle : (if x.2.2 < best.2.2 then x else best).2.2 ≤ x.2.2 := by
      by_cases hc : x.2.2 < best.2.2
      · rw [if_pos hc]
      · rw [if_neg hc]; omega
    refine ⟨le_trans hx.1 hseed, ?_⟩
    intro e he
    rcases List.mem_cons.mp he with h1 | h1
    · rw [h1, oldestAux]; exact le_trans hx.1 hxle
    · rw [oldestAux]; exact hx.2 e h1

/-- The evicted entry is an entry of the dict. -/
theorem oldestEntry_mem (es : List (String × PyVal × Nat)) (e0 : String × PyVal × Nat)
    (h : oldestEntry es = some e0) : e0 ∈ es := by
  cases es with
  | nil => cases h
  | cons x es =>
    have hx : oldestAux x es = e0 := by
      simpa [oldestEntry] using h
    rcases oldestAux_mem es x with h1 | h1
    · rw [hx] at h1; rw [← h1]; exact List.mem_cons_self _ _
    · rw [hx] at h1; exact List.mem_cons_of_mem _ h1

/-- The evicted entry carries a minimal timestamp. -/
theorem oldestEntry_min (es : List (String × PyVal × Nat)) (e0 : String × PyVal × Nat)
    (h : oldestEntry es = some e0) : ∀ e ∈ es, e0.2.2 ≤ e.2.2 := by
  cases es with
  | nil => cases h
  | cons x es =>
    have hx : oldestAux x es = e0 := by
      simpa [oldestEntry] using h
    intro e he
    rcases List.mem_cons.mp he with h1 | h1
    · rw [← hx, h1]; exact (oldestAux_le es x).1
    · rw [← hx]; exact (oldestAux_le es x).2 e h1

/-- Set keeps the max_size and ttl fields. -/
theorem cacheSet_params (t : Nat) (k : String) (v : PyVal) (st : CacheState) :
    ((cacheSet t k v st).getD st).max_size = st.max_size
    ∧ ((cacheSet t k v st).getD st).ttl = st.ttl := by
  unfold cacheSet
  by_cases h : st.entries.length ≥ st.max_size
  · rw [if_pos h]
    cases he : oldestEntry st.entries <;> simp [he]
  · rw [if_neg h]; exact ⟨rfl, rfl⟩

/-- One cache call keeps the entry count within max_size. -/
theorem applyOp_len (st : CacheState) (op : CacheOp)
    (h : st.entries.length ≤ st.max_size) :
    (applyOp st op).entries.length ≤ st.max_size := by
  cases op with
  | opClear => simpa [applyOp, cacheClear] using Nat.zero_le _
  | opGet t k =>
    cases hl : lookupEntry st.entries k with
    | none =>
      have hstate : applyOp st (.opGet t k) = st := by simp [applyOp, cacheGet, hl]
      rw [hstate]; exact h
    | some p =>
      obtain ⟨v, ts⟩ := p
      by_cases hexp : t - ts > st.ttl
      · have hstate : (applyOp st (.opGet t k)).entries = eraseKey k st.entries := by
          simp [applyOp, cacheGet, hl, hexp]
        rw [hstate]
        exact le_trans (eraseKey_length_le k st.entries) h
      · have hstate : applyOp st (.opGet t k) = st := by
          simp [applyOp, cacheGet, hl, hexp]
        rw [hstate]; exact h
  | opSet t k v =>
    by_cases hfull : st.entries.length ≥ st.max_size
    · cases he : oldestEntry st.entries with
      | none =>
        have hstate : applyOp st (.opSet t k v) = st := by
          simp [applyOp, cacheSet, hfull, he]
        rw [hstate]; exact h
      | some e0 =>
        have hstate : (applyOp st (.opSet t k v)).entries
            = dictSet (eraseKey e0.1 st.entries) k v t := by
          simp [applyOp, cacheSet, hfull, he]
        have he0 : e0.1 ∈ keysOf st.entries :=
          List.mem_map_of_mem _ (oldestEntry_mem st.entries e0 he)
        have hlen := eraseKey_length_of_mem e0.1 st.entries he0
        have hd := dictSet_length (eraseKey e0.1 st.entries) k v t
        rw [hstate, hd]
        split <;> omega
    · have hstate : (applyOp st (.opSet t k v)).entries = dictSet st.entries k v t := by
        simp [applyOp, cacheSet, hfull]
      have hd := dictSet_length st.entries k v t
      rw [hstate, hd]
      split <;> omega

/-- One cache call keeps the max_size and ttl fields. -/
theorem applyOp_params (st : CacheState) (op : CacheOp) :
    (applyOp st op).max_size = st.max_size ∧ (applyOp st op).ttl = st.ttl := by
  cases op with
  | opClear => exact ⟨rfl, rfl⟩
  | opGet t k =>
    cases hl : lookupEntry st.entries k with
    | none =>
      have hstate : applyOp st (.opGet t k) = st := by simp [applyOp, cacheGet, hl]
      rw [hstate]; exact ⟨rfl, rfl⟩
    | some p =>
      obtain ⟨v, ts⟩ := p
      by_cases hexp : t - ts > st.ttl
      · constructor <;> simp [applyOp, cacheGet, hl, hexp]
      · have hstate : applyOp st (.opGet t k) = st := by
          simp [applyOp, cacheGet, hl, hexp]
        rw [hstate]; exact ⟨rfl, rfl⟩
  | opSet t k v => exact cacheSet_params t k v st

/-- A run of cache calls from any in-bound state stays in bound. -/
theorem foldl_applyOp_len (ops : List CacheOp) :
    ∀ st : CacheState, st.entries.length ≤ st.max_size →
      (ops.foldl applyOp st).entries.length ≤ (ops.foldl applyOp st).max_size := by
  induction ops with
  | nil => intro st h; exact h
  | cons op ops ih =>
    intro st h
    have h1 := applyOp_len st op h
    have h2 := (applyOp_params st op).1
    exact ih (applyOp st op) (h2 ▸ h1)

/-- Inserting a fresh key: the entry count becomes min (count + 1)
max_size and the keys stay within the old keys plus the new one. -/
theorem cacheSet_fresh (t : Nat) (k : String) (v : PyVal) (st : CacheState)
    (hk : k ∉ keysOf st.entries) (hle : st.entries.length ≤ st.max_size) :
    ((cacheSet t k v st).getD st).entries.length = min (st.entries.length + 1) st.max_size
    ∧ keysOf ((cacheSet t k v st).getD st).entries ⊆ k :: keysOf st.entries := by
  by_cases hfull : st.entries.length ≥ st.max_size
  · have hlen : st.entries.length = st.max_size := le_antisymm hle hfull
    cases he : oldestEntry st.entries with
    | none =>
      have hnil : st.entries = [] := by
        cases hes : st.entries with
        | nil => rfl
        | cons x xs => rw [hes] at he; cases he
      have hm0 : st.max_size = 0 := by rw [← hlen, hnil]; rfl
      have hstate : (cacheSet t k v st).getD st = st := by
        simp [cacheSet, hfull, he]
      rw [hstate, hnil, hm0]
      exact ⟨rfl, by intro x hx; cases hx⟩
    | some e0 =>
      have hstate : ((cacheSet t k v st).getD st).entries
          = dictSet (eraseKey e0.1 st.entries) k v t := by
        simp [cacheSet, hfull, he]
      have he0 : e0.1 ∈ keysOf st.entries :=
        List.mem_map_of_mem _ (oldestEntry_mem st.entries e0 he)
      have herase := eraseKey_length_of_mem e0.1 st.entries he0
      have hkfresh : k ∉ keysOf (eraseKey e0.1 st.entries) := by
        rw [eraseKey_keys]
        intro hx
        exact hk (List.mem_of_mem_erase hx)
      have hd := dictSet_length (eraseKey e0.1 st.entries) k v t
      rw [if_neg hkfresh] at hd
      have hkeys := dictSet_keys_fresh (eraseKey e0.1 st.entries) k v t hkfresh
      constructor
      · rw [hstate, hd]; omega
      · rw [hstate, hkeys, eraseKey_keys]
        intro x hx
        rcases List.mem_append.mp hx with h1 | h1
        · exact List.mem_cons_of_mem _ (List.mem_of_mem_erase h1)
        · rw [List.mem_singleton.mp h1]
          exact List.mem_cons_self _ _
  · have hstate : ((cacheSet t k v st).getD st).entries = dictSet st.entries k v t := by
      simp [cacheSet, hfull]
    have hd := dictSet_length st.entries k v t
    rw [if_neg hk] at hd
    have hkeys := dictSet_keys_fresh st.entries k v t hk
    constructor
    · rw [hstate, hd]; omega
    · rw [hstate, hkeys]
      intro x hx
      rcases List.mem_append.mp hx with h1 | h1
      · exact List.mem_cons_of_mem _ h1
      · rw [List.mem_singleton.mp h1]
        exact List.mem_cons_self _ _

/-- Folding fresh inserts from any state: the entry count saturates at
max_size. -/
theorem foldl_cacheSet_fresh (t : Nat) (v : PyVal) :
    ∀ (ks : List String) (st : CacheState), ks.Nodup →
      (∀ x ∈ ks, x ∉ keysOf st.entries) →
      st.entries.length ≤ st.max_size →
      ((ks.foldl (fun s k => (cacheSet t k v s).getD s) st).entries.length
          = min (st.entries.length + ks.length) st.max_size)
      ∧ ((ks.foldl (fun s k => (cacheSet t k v s).getD s) st).max_size = st.max_size) := by
  intro ks
  induction ks with
  | nil =>
    intro st _ _ hle
    constructor
    · simp [Nat.min_eq_left hle]
    · rfl
  | cons k ks ih =>
    intro st hnd hfresh hle
    have hk : k ∉ keysOf st.entries := hfresh k (List.mem_cons_self k ks)
    have hset := cacheSet_fresh t k v st hk hle
    have hparams := cacheSet_params t k v st
    have hle' : ((cacheSet t k v st).getD st).entries.length
        ≤ ((cacheSet t k v st).getD st).max_size := by
      rw [hset.1, hparams.1]; omega
    have hfresh' : ∀ x ∈ ks, x ∉ keysOf ((cacheSet t k v st).getD st).entries := by
      intro x hx hmem
      have hxk : x ≠ k := by
        intro hxe; rw [hxe] at hx
        exact (List.nodup_cons.mp hnd).1 hx
      rcases List.mem_cons.mp (hset.2 hmem) with h1 | h1
      · exact hxk h1
      · exact hfresh x (List.mem_cons_of_mem _ hx) h1
    have := ih ((cacheSet t k v st).getD st) (List.nodup_cons.mp hnd).2 hfresh' hle'
    rw [List.foldl_cons]
    constructor
    · rw [this.1, hset.1, hparams.1]
      simp only [List.length_cons]
      omega
    · rw [this.2, hparams.1]

/-- A run of cache calls keeps the configured max_size. -/
theorem foldl_applyOp_max (ops : List CacheOp) :
    ∀ st : CacheState, (ops.foldl applyOp st).max_size = st.max_size := by
  induction ops with
  | nil => intro st; rfl
  | cons op ops ih =>
    intro st
    rw [List.foldl_cons, ih (applyOp st op), (applyOp_params st op).1]

/-- C6: the bounded-cache contract of ElementCache.  First, after any
sequence of get/set/clear calls against a fresh cache, the entry count
never exceeds the configured max_size.  Second, a set on a cache holding
max_size entries (max_size at least 1, dict keys unique, new key)
evicts exactly the single entry with the oldest timestamp - it is an
entry of minimal timestamp, it leaves the key set, every other entry's
key stays and the new key enters - so the count stays max_size.  Third,
inserting max_size + 1 distinct keys into a fresh cache leaves exactly
max_size entries. -/
theorem c6_cache_bound_and_eviction :
    (∀ (m ttl : Nat) (ops : List CacheOp), (runOps m ttl ops).entries.length ≤ m)
    ∧ (∀ (st : CacheState) (t : Nat) (k : String) (v : PyVal),
        st.entries.length = st.max_size → 1 ≤ st.max_size →
        (keysOf st.entries).Nodup → k ∉ keysOf st.entries →
        ∃ e0, oldestEntry st.entries = some e0
          ∧ e0 ∈ st.entries
          ∧ (∀ e ∈ st.entries, e0.2.2 ≤ e.2.2)
          ∧ cacheSet t k v st
              = some ⟨st.max_size, st.ttl, dictSet (eraseKey e0.1 st.entries) k v t⟩
          ∧ keysOf (dictSet (eraseKey e0.1 st.entries) k v t)
              = (keysOf st.entries).erase e0.1 ++ [k]
          ∧ (dictSet (eraseKey e0.1 st.entries) k v t).length = st.max_size)
    ∧ (∀ (m ttl t : Nat) (v : PyVal) (ks : List String),
        ks.Nodup → ks.length = m + 1 → (insertAll m ttl t v ks).entries.length = m) := by
  refine ⟨?_, ?_, ?_⟩
  · intro m ttl ops
    have h := foldl_applyOp_len ops (emptyCache m ttl) (by simp [emptyCache])
    rwa [foldl_applyOp_max ops (emptyCache m ttl)] at h
  · intro st t k v hfull hpos hnd hk
    obtain ⟨e, es, hes⟩ : ∃ e es, st.entries = e :: es := by
      cases hes : st.entries with
      | nil => rw [hes] at hfull; simp at hfull; omega
      | cons x xs => exact ⟨x, xs, rfl⟩
    have he : oldestEntry st.entries = some (oldestAux e es) := by rw [hes]; rfl
    have hmem := oldestEntry_mem st.entries (oldestAux e es) he
    have he0 : (oldestAux e es).1 ∈ keysOf st.entries := List.mem_map_of_mem _ hmem
    have hkfresh : k ∉ keysOf (eraseKey (oldestAux e es).1 st.entries) := by
      rw [eraseKey_keys]
      intro hx
      exact hk (List.mem_of_mem_erase hx)
    have herase := eraseKey_length_of_mem (oldestAux e es).1 st.entries he0
    have hd := dictSet_length (eraseKey (oldestAux e es).1 st.entries) k v t
    rw [if_neg hkfresh] at hd
    refine ⟨oldestAux e es, he, hmem, oldestEntry_min st.entries _ he, ?_, ?_, ?_⟩
    · have hge : st.entries.length ≥ st.max_size := le_of_eq hfull.symm
      simp [cacheSet, hge, he]
    · rw [dictSet_keys_fresh _ _ _ _ hkfresh, eraseKey_keys]
    · omega
  · intro m ttl t v ks hnd hlen
    have h := (foldl_cacheSet_fresh t v ks (emptyCache m ttl) hnd
      (by intro x _ hx; simp [keysOf, emptyCache] at hx)
      (by simp [emptyCache])).1
    rw [insertAll, h, hlen]
    simp [emptyCache]

/-- Full two-entry cache (max_size 2), entry b older than entry a. -/
def fullCache2 : CacheState :=
  ⟨2, 30, [("a", .pystr "x", 5), ("b", .pystr "x", 3)]⟩

/-- Witness for C6 at concrete inputs: a fresh bound-2 cache stays in
bound over a set/get/set/set sequence; inserting c into the full
two-entry cache evicts the oldest entry b; inserting 3 distinct keys
into a fresh bound-2 cache leaves 2 entries. -/
theorem c6_cache_bound_and_eviction_w :
    (runOps 2 30 [.opSet 0 "a" (.pystr "x"), .opGet 1 "a", .opSet 2 "b" (.pystr "y"),
      .opSet 3 "c" (.pystr "z")]).entries.length ≤ 2
    ∧ fullCache2.entries.length = fullCache2.max_size
    ∧ 1 ≤ fullCache2.max_size
    ∧ (keysOf fullCache2.entries).Nodup
    ∧ "c" ∉ keysOf fullCache2.entries
    ∧ (∃ e0, oldestEntry fullCache2.entries = some e0
        ∧ e0 ∈ fullCache2.entries
        ∧ (∀ e ∈ fullCache2.entries, e0.2.2 ≤ e.2.2)
        ∧ cacheSet 9 "c" (.pystr "z") fullCache2
            = some ⟨fullCache2.max_size, fullCache2.ttl,
                dictSet (eraseKey e0.1 fullCache2.entries) "c" (.pystr "z") 9⟩
        ∧ keysOf (dictSet (eraseKey e0.1 fullCache2.entries) "c" (.pystr "z") 9)
            = (keysOf fullCache2.entries).erase e0.1 ++ ["c"]
        ∧ (dictSet (eraseKey e0.1 fullCache2.entries) "c" (.pystr "z") 9).length
            = fullCache2.max_size)
    ∧ ["a", "b", "c"].Nodup ∧ (["a", "b", "c"] : List String).length = 2 + 1
    ∧ (insertAll 2 30 0 (.pystr "x") ["a", "b", "c"]).entries.length = 2 :=
  ⟨c6_cache_bound_and_eviction.1 2 30 _,
    rfl, by decide, by decide, by decide,
    c6_cache_bound_and_eviction.2.1 fullCache2 9 "c" (.pystr "z") rfl (by decide)
      (by decide) (by decide),
    by decide, rfl,
    c6_cache_bound_and_eviction.2.2 2 30 0 (.pystr "x") ["a", "b", "c"]
      (by decide) rfl⟩

/-- C7: reading a cached entry strictly more than ttl seconds after its
insertion timestamp is a miss that removes exactly that entry; reading
it within the ttl returns the stored value and leaves the cache
unchanged. -/
theorem c7_ttl_read (st : CacheState) (t : Nat) (k : String) (v : PyVal) (ts : Nat)
    (hmem : lookupEntry st.entries k = some (v, ts))
    (hnd : (keysOf st.entries).Nodup) :
    (t - ts > st.ttl →
        (cacheGet t k st).1 = none
        ∧ (cacheGet t k st).2.entries = eraseKey k st.entries
        ∧ lookupEntry (cacheGet t k st).2.entries k = none
        ∧ (∀ e ∈ st.entries, e.1 ≠ k → e ∈ (cacheGet t k st).2.entries))
    ∧ (¬(t - ts > st.ttl) → cacheGet t k st = (some v, st)) := by
  constructor
  · intro hexp
    have h1 : (cacheGet t k st).1 = none := by simp [cacheGet, hmem, hexp]
    have h2 : (cacheGet t k st).2.entries = eraseKey k st.entries := by
      simp [cacheGet, hmem, hexp]
    refine ⟨h1, h2, ?_, ?_⟩
    · rw [h2]; exact lookupEntry_eraseKey_self k st.entries hnd
    · intro e he hne; rw [h2]; exact mem_eraseKey k st.entries e he hne
  · intro hexp
    simp [cacheGet, hmem, hexp]

/-- One-entry cache holding key k inserted at time 0 with ttl 30. -/
def cacheOneEntry : CacheState := ⟨100, 30, [("k", .pystr "v", 0)]⟩

/-- Witness for C7: a read at 45 seconds misses and removes the entry,
a read at 20 seconds returns it and changes nothing. -/
theorem c7_ttl_read_w :
    lookupEntry cacheOneEntry.entries "k" = some (.pystr "v", 0)
    ∧ (keysOf cacheOneEntry.entries).Nodup
    ∧ (45 - 0 > cacheOneEntry.ttl)
    ∧ (cacheGet 45 "k" cacheOneEntry).1 = none
    ∧ lookupEntry (cacheGet 45 "k" cacheOneEntry).2.entries "k" = none
    ∧ ¬(20 - 0 > cacheOneEntry.ttl)
    ∧ cacheGet 20 "k" cacheOneEntry = (some (.pystr "v"), cacheOneEntry) := by
  have h := c7_ttl_read cacheOneEntry 45 "k" (.pystr "v") 0 rfl (by decide)
  have h20 := c7_ttl_read cacheOneEntry 20 "k" (.pystr "v") 0 rfl (by decide)
  refine ⟨rfl, by decide, by decide, (h.1 (by decide)).1, (h.1 (by decide)).2.2.1,
    by decide, h20.2 (by decide)⟩
